import Mathlib

/-!
Verification of the growable vector container in
src/Containers/VectorContainer.h (class Vector<T, Allocator>).

The container state is embedded shallowly: a Vector is a triple of its
private members sz, cap and the live prefix of its buffer (the slots
[0, sz) that hold constructed elements; slots [sz, cap) are raw memory
and carry no values, so they are not represented).  Each public
operation of the source is translated to a function on this state;
the raw-pointer loops of the helper methods (assignRangeForward,
assignRangeBackward, moveRangeForward) are translated as index-based
loops over the live list, and their net effect is characterised by
lemmas proved below.  Operations whose C++ execution is undefined
(out-of-bounds construction, negative-distance erase) are mapped to
Option.none / a dedicated UB result, because the source assigns them
no result state at all.
-/

namespace VectorSpec

/-- Error taxonomy of the container: std::out_of_range thrown by at(),
std::invalid_argument thrown by insert/erase position validation, and
std::bad_alloc from the allocator. -/
inductive VErr : Type where
  | rangeError : VErr
  | invalidArgument : VErr
  | allocationError : VErr
deriving Repr, DecidableEq

/-- State of a Vector<T>: the private members sz and cap, plus the list
of live (constructed) elements, i.e. the contents of slots [0, sz).
A well-formed state has data.length = sz (captured by lemma hypotheses,
not baked into the type). -/
structure VecState (α : Type) where
  sz : Nat
  cap : Nat
  data : List α
deriving Repr, DecidableEq

/-- Loop of nextPowerOf2 (source lines 190-195):
while (N != 0) { N >>= 1; maxValuedBit <<= 1 }.
The C++ loop halves N each iteration, so it runs for bitlength(N) ≤ N
iterations when N ≥ 1; the fuel argument (instantiated with N itself)
only makes that recursion structural and is never exhausted.
This is the IDEALISED form over unbounded Nat: it agrees with the
source for every N < 2^63, the only region the container scenarios of
this development reach; the source computes in std::size_t, whose
wraparound for N ≥ 2^63 is modelled separately by nextPowerOf2SizeTGo
below. -/
def nextPowerOf2Go (fuel N acc : Nat) : Nat :=
  match fuel with
  | 0 => acc
  | f + 1 => if N = 0 then acc else nextPowerOf2Go f (N / 2) (acc * 2)

/-- nextPowerOf2 (source lines 184-198): returns 1 for N = 0, otherwise
runs the shift loop starting from maxValuedBit = 1.  Idealised over
unbounded Nat; agrees with the source for N < 2^63 (lemma
nextPowerOf2SizeT_eq_below), which covers every capacity value arising
in the claims that use it. -/
def nextPowerOf2 (N : Nat) : Nat :=
  if N = 0 then 1 else nextPowerOf2Go N N 1

/-- One past the largest std::size_t value on the 64-bit (LP64) target:
unsigned arithmetic in the source wraps modulo this. -/
def sizeTMod : Nat := 2 ^ 64

/-- Loop of nextPowerOf2 with the source's actual std::size_t
arithmetic: maxValuedBit <<= 1 is a 64-bit shift, so each doubling
wraps modulo 2^64.  For N ≥ 2^63 the loop runs 64 times and the bit
is shifted out entirely, leaving 0. -/
def nextPowerOf2SizeTGo (fuel N acc : Nat) : Nat :=
  match fuel with
  | 0 => acc
  | f + 1 => if N = 0 then acc else nextPowerOf2SizeTGo f (N / 2) (acc * 2 % sizeTMod)

/-- nextPowerOf2 (source lines 184-198) with faithful std::size_t
wraparound: identical to nextPowerOf2 for N < 2^63 and 0 for
2^63 ≤ N < 2^64. -/
def nextPowerOf2SizeT (N : Nat) : Nat :=
  if N = 0 then 1 else nextPowerOf2SizeTGo N N 1

/-- Capacity values the container considers admissible in the spec:
zero or a power of two.  Stated quantifier-free through log2 so that
concrete instances are provable by computation; the lemma pow2or0_iff
below shows it coincides with the existential formulation. -/
def Pow2Or0 (n : Nat) : Prop :=
  n = 0 ∨ n = 2 ^ Nat.log2 n

/-- assignRangeForward (source lines 1561-1567) restricted to the live
buffer, with iterators expressed as offsets: copies count elements,
first-to-last, from offset src to offset dst
(for (; from != to; ++from, ++destination) *destination = *from).
Reads of slots previously written in the same loop happen exactly as in
the source; the characterisation lemma below assumes dst ≤ src, which
is how every call site of the source uses it. -/
def assignRangeForwardL [Inhabited α] (l : List α) (src dst count : Nat) : List α :=
  match count with
  | 0 => l
  | c + 1 => assignRangeForwardL (l.set dst (l.getD src default)) (src + 1) (dst + 1) c

/-- assignRangeBackward (source lines 1576-1586) restricted to the live
buffer: copies count elements from offset src to offset dst starting
from the last pair (destination += to - from - 1; for (; to != from;
--to, --destination) *destination = *(to - 1)). -/
def assignRangeBackwardL [Inhabited α] (l : List α) (src dst : Nat) : Nat → List α
  | 0 => l
  | c + 1 => assignRangeBackwardL (l.set (dst + c) (l.getD (src + c) default)) src dst c

/-- Default-constructed Vector (source lines 203-206): sz = 0, cap = 0,
data = nullptr. -/
def emptyVec : VecState α := ⟨0, 0, []⟩

/-- Fill constructor with a count only (source lines 224-242):
cap = nextPowerOf2(numOfElements), then numOfElements elements are
default-constructed in place. -/
def fillCtorCount [Inhabited α] (n : Nat) : VecState α :=
  ⟨n, nextPowerOf2 n, List.replicate n default⟩

/-- Fill constructor with a count and a value (source lines 251-269).
The member initialiser list reads cap(nextPowerOf2(sz)) at line 253,
and sz has just been initialised to 0, so cap = nextPowerOf2(0) = 1 no
matter how many elements were requested; the construction loop then
placement-constructs n elements into the 1-slot allocation.  For n > 1
the writes land beyond the allocated block, which is undefined
behavior, hence no result state (none). -/
def fillValueCtor (n : Nat) (x : α) : Option (VecState α) :=
  let c := nextPowerOf2 0
  if n ≤ c then some ⟨n, c, List.replicate n x⟩ else none

/-- at (source lines 502-509): bounds-checked access; throws
std::out_of_range when index ≥ sz, reads the live slot otherwise. The
method is const, so no state is returned.  Named atIndex because `at`
is reserved in Lean. -/
def atIndex [Inhabited α] (v : VecState α) (i : Nat) : Except VErr α :=
  if i < v.sz then .ok (v.data.getD i default) else .error .rangeError

/-- push_back by copy (source lines 713-732): when sz == cap, grow to
nextPowerOf2(cap) copying the live contents (grow(nextPowerOf2(cap),
true)), release the old buffer and install the new one; then construct
the new element at slot sz and increment sz.  The grow precondition
newCap < cap never fires because nextPowerOf2 cap > cap
(lt_nextPowerOf2). -/
def push_back (v : VecState α) (x : α) : VecState α :=
  if v.sz = v.cap then
    ⟨v.sz + 1, nextPowerOf2 v.cap, v.data ++ [x]⟩
  else
    ⟨v.sz + 1, v.cap, v.data ++ [x]⟩

/-- push_back when the copy-construction of the incoming element at
line 729 throws: the growth step (lines 716-726) has already destroyed
the old buffer and installed the new one with cap = nextPowerOf2(cap),
and line 731 (sz++) is never reached, so the exception leaves sz and
the live contents unchanged but the capacity grown. -/
def pushBackElemThrow (v : VecState α) : VecState α :=
  if v.sz = v.cap then ⟨v.sz, nextPowerOf2 v.cap, v.data⟩ else v

/-- pop_back (source lines 747-755): no-op when empty, otherwise
decrement sz and destroy the now-unreachable last slot. -/
def pop_back (v : VecState α) : VecState α :=
  if 0 < v.sz then ⟨v.sz - 1, v.cap, v.data.take (v.sz - 1)⟩ else v

/-- clear (source line 132): destroyRange(begin(), end()); sz = 0.
Capacity and buffer are kept. -/
def clearVec (v : VecState α) : VecState α := ⟨0, v.cap, []⟩

/-- In-place branch of single-element insert (source lines 1032-1055),
taken when the position is interior and sz < cap: move-construct the
last element into the raw slot at sz (moveRangeForward(end()-1, end(),
end())), increment sz, shift [pos, sz-2] right by one with
assignRangeBackward(position, end()-2, position+1), then assign the
(copied) new value into the freed slot. -/
def insertInPlace [Inhabited α] (v : VecState α) (i : Nat) (x : α) : VecState α :=
  ⟨v.sz + 1, v.cap,
    (assignRangeBackwardL (v.data ++ [v.data.getD (v.sz - 1) default])
      i (i + 1) (v.sz - 1 - i)).set i x⟩

/-- Single-element insert (source lines 970-1058): validates the
position (std::invalid_argument outside [begin, end]), delegates to
push_back when inserting at end(); otherwise either reallocates to
nextPowerOf2(cap) building the new buffer as left part, new element,
right part (lines 985-1031), or shifts in place (lines 1032-1055). -/
def insertSingle [Inhabited α] (v : VecState α) (i : Nat) (x : α) :
    Except VErr (VecState α) :=
  if v.sz < i then .error .invalidArgument
  else if i = v.sz then .ok (push_back v x)
  else if v.sz = v.cap then
    .ok ⟨v.sz + 1, nextPowerOf2 v.cap, v.data.take i ++ x :: v.data.drop i⟩
  else .ok (insertInPlace v i x)

/-- In-place tail shift of single-element erase (source lines
1188-1190): assignRangeForward(position+1, end(), position), destroy
the last slot, decrement sz. -/
def eraseInPlace [Inhabited α] (v : VecState α) (i : Nat) : VecState α :=
  ⟨v.sz - 1, v.cap,
    (assignRangeForwardL v.data (i + 1) i (v.sz - (i + 1))).take (v.sz - 1)⟩

/-- Single-element erase (source lines 1175-1193): validates the
position (std::invalid_argument outside [begin, end)), pops the last
element when the position is end()-1, otherwise shifts the tail left in
place. -/
def eraseSingle [Inhabited α] (v : VecState α) (i : Nat) :
    Except VErr (VecState α) :=
  if v.sz ≤ i then .error .invalidArgument
  else if i = v.sz - 1 then .ok (pop_back v)
  else .ok (eraseInPlace v i)

/-- Result of range erase: an exception leaving the container
untouched, a normal result state, or undefined behavior. -/
inductive ERes (α : Type) : Type where
  | err : VErr → ERes α
  | ok : VecState α → ERes α
  | ub : ERes α
deriving Repr, DecidableEq

/-- Range erase (source lines 1203-1219) with the two iterators given
as offsets i = first - begin() and j = last - begin() (iterators into
the container are begin() + k, so offsets are non-negative).  The
source validates first < begin() || last > end() and first == last,
but never that last ≥ first; for a reversed range (j < i) the
subsequent distance is negative, so assignRangeForward runs with a
source range ending before it starts and destroyRange(end() -
distance, end()) walks beyond the buffer: undefined behavior, no
result state. -/
def eraseRange [Inhabited α] (v : VecState α) (i j : Nat) : ERes α :=
  if v.sz < j then .err .invalidArgument
  else if i = j then .err .invalidArgument
  else if j < i then .ub
  else
    .ok ⟨v.sz - (j - i), v.cap,
      (assignRangeForwardL v.data j i (v.sz - j)).take (v.sz - (j - i))⟩

/-- resize (source lines 1363-1428): newSize 0 clears; smaller newSize
destroys the tail; equal is a no-op; larger newSize default-constructs
the extra elements in place when newSize < cap, and otherwise grows via
grow(newSize, true) and installs cap = newSize (line 1423). -/
def resize [Inhabited α] (v : VecState α) (newSize : Nat) : VecState α :=
  if newSize = 0 then clearVec v
  else if newSize < v.sz then ⟨newSize, v.cap, v.data.take newSize⟩
  else if v.sz = newSize then v
  else if newSize < v.cap then
    ⟨newSize, v.cap, v.data ++ List.replicate (newSize - v.sz) default⟩
  else
    ⟨newSize, newSize, v.data ++ List.replicate (newSize - v.sz) default⟩

/-- reserve (source lines 1506-1518): no-op when the request does not
exceed cap, otherwise grow(reservationSize, true) and cap =
reservationSize (line 1517). -/
def reserve (v : VecState α) (n : Nat) : VecState α :=
  if n ≤ v.cap then v else ⟨v.sz, n, v.data⟩

/-- shrink_to_fit (source lines 1524-1552): no-op when sz == cap,
otherwise allocate a buffer of exactly size() elements, copy the live
elements, release the old buffer and set cap = size() (line 1551). -/
def shrink_to_fit (v : VecState α) : VecState α :=
  if v.sz = v.cap then v else ⟨v.sz, v.sz, v.data⟩

/-- Fill assign (source lines 595-648): when the new count exceeds cap,
allocate nextPowerOf2(count), fill-construct and install; otherwise
overwrite the live prefix by assignment, construct the rest into slack
capacity and destroy any surplus, all within the old buffer.  Either
way the live contents end up as count copies of the fill value. -/
def assignFill (v : VecState α) (n : Nat) (x : α) : VecState α :=
  if v.cap < n then ⟨n, nextPowerOf2 n, List.replicate n x⟩
  else ⟨n, v.cap, List.replicate n x⟩

/-- Range assign from a snapshot of the source sequence (source lines
531-587): same buffer policy as fill assign, with the live contents
becoming a copy of the source sequence. -/
def assignRange (v : VecState α) (src : List α) : VecState α :=
  if v.cap < src.length then ⟨src.length, nextPowerOf2 src.length, src⟩
  else ⟨src.length, v.cap, src⟩

/-- Copy assignment operator (source lines 433-440): the guard
this != &copyVector is pointer identity, which the shallow embedding
carries as the explicit flag sameObject; when the operands differ it
delegates to assign(copyVector.begin(), copyVector.end()). -/
def copyAssignOp (sameObject : Bool) (lhs rhs : VecState α) : VecState α :=
  if sameObject then lhs else assignRange lhs rhs.data

/-- A sequence of push_back calls starting from the default-constructed
container. -/
def pushSeq (xs : List α) : VecState α := xs.foldl push_back emptyVec

/-- The public mutating operations used for the capacity-invariant
trace semantics. -/
inductive VOp (α : Type) : Type where
  | push : α → VOp α
  | pop : VOp α
  | clearOp : VOp α
  | insertAt : Nat → α → VOp α
  | eraseAt : Nat → VOp α
  | eraseRng : Nat → Nat → VOp α
  | resizeTo : Nat → VOp α
  | reserveTo : Nat → VOp α
  | shrinkOp : VOp α
  | assignN : Nat → α → VOp α
deriving Repr, DecidableEq

/-- One public operation on the container state.  Operations that throw
RangeError/InvalidArgument leave the container unmutated, so the state
after the (propagated) exception is the unchanged state; a reversed
erase range has no defined result (none). -/
def step [Inhabited α] (v : VecState α) : VOp α → Option (VecState α)
  | .push x => some (push_back v x)
  | .pop => some (pop_back v)
  | .clearOp => some (clearVec v)
  | .insertAt i x =>
    some (match insertSingle v i x with
      | .ok w => w
      | .error _ => v)
  | .eraseAt i =>
    some (match eraseSingle v i with
      | .ok w => w
      | .error _ => v)
  | .eraseRng i j =>
    match eraseRange v i j with
    | .ok w => some w
    | .err _ => some v
    | .ub => none
  | .resizeTo n => some (resize v n)
  | .reserveTo n => some (reserve v n)
  | .shrinkOp => some (shrink_to_fit v)
  | .assignN n x => some (assignFill v n x)

/-- Runs a list of operations; none as soon as one of them has
undefined behavior. -/
def run [Inhabited α] (v : VecState α) : List (VOp α) → Option (VecState α)
  | [] => some v
  | op :: ops =>
    match step v op with
    | some w => run w ops
    | none => none

/-- Whether this operation, executed in state v, takes one of the three
branches that install an exact, caller-chosen capacity instead of a
power of two: resize's grow-reallocation branch (reached exactly when
newSize > size and newSize ≥ capacity; cap = newSize at line 1423), a
capacity-raising reserve (line 1517), or a reallocating shrink_to_fit
(line 1551).  Shrinking and in-place resizes, no-op reserves and no-op
shrink_to_fits leave the capacity unchanged. -/
def installsExactCap (v : VecState α) : VOp α → Bool
  | .resizeTo n => decide (v.sz < n ∧ v.cap ≤ n)
  | .reserveTo n => decide (v.cap < n)
  | .shrinkOp => decide (¬ v.sz = v.cap)
  | _ => false

/-- Whether a trace, run from v, never takes an exact-capacity-
installing branch (up to the first undefined step, after which run
yields none anyway). -/
def runNoExactCap [Inhabited α] (v : VecState α) : List (VOp α) → Bool
  | [] => true
  | op :: ops =>
    !installsExactCap v op &&
      match step v op with
      | some w => runNoExactCap w ops
      | none => true

/-- One deallocation as the Storage Provider sees it: the element count
the released block was allocated with (none when the pointer is the
null pointer of an empty container, which was never allocated), and the
element count destroyPointer actually passes to deallocate. -/
structure DeallocEvent : Type where
  allocatedWith : Option Nat
  passed : Nat
deriving Repr, DecidableEq

/-- destroyPointer (source lines 1731-1737) passes the CURRENT size to
std::allocator_traits::deallocate, whatever the released block was
allocated with. -/
def destroyPointerCount (v : VecState α) : Nat := v.sz

/-- Container state paired with the element count its current block was
allocated with (every allocation site passes the value that becomes the
new cap). -/
structure TrackedVec (α : Type) : Type where
  vec : VecState α
  curBlock : Option Nat
deriving Repr, DecidableEq

/-- push_back with allocation tracking: the growth path allocates
nextPowerOf2(cap) (line 718) and releases the old block through
destroyPointer (line 722). -/
def trackedPushBack (t : TrackedVec α) (x : α) :
    TrackedVec α × List DeallocEvent :=
  if t.vec.sz = t.vec.cap then
    (⟨push_back t.vec x, some (nextPowerOf2 t.vec.cap)⟩,
      [⟨t.curBlock, destroyPointerCount t.vec⟩])
  else (⟨push_back t.vec x, t.curBlock⟩, [])

/-- reserve with allocation tracking: allocates reservationSize (via
grow, line 1512) and releases the old block through destroyPointer
(line 1515). -/
def trackedReserve (t : TrackedVec α) (n : Nat) :
    TrackedVec α × List DeallocEvent :=
  if n ≤ t.vec.cap then (t, [])
  else
    (⟨reserve t.vec n, some n⟩, [⟨t.curBlock, destroyPointerCount t.vec⟩])

/-- shrink_to_fit with allocation tracking: allocates size() (line
1530) and releases the old block through destroyPointer (line 1548). -/
def trackedShrinkToFit (t : TrackedVec α) :
    TrackedVec α × List DeallocEvent :=
  if t.vec.sz = t.vec.cap then (t, [])
  else
    (⟨shrink_to_fit t.vec, some t.vec.sz⟩,
      [⟨t.curBlock, destroyPointerCount t.vec⟩])

/-- Concrete allocator-level trace: default-construct, push_back(1),
reserve(4), shrink_to_fit, recording every deallocate call. -/
def c7trace : TrackedVec Nat × List DeallocEvent :=
  let s0 : TrackedVec Nat := ⟨emptyVec, none⟩
  let r1 := trackedPushBack s0 1
  let r2 := trackedReserve r1.1 4
  let r3 := trackedShrinkToFit r2.1
  (r3.1, r1.2 ++ r2.2 ++ r3.2)

/-- The shift loop computes acc * 2 ^ (log2 N + 1) for N ≥ 1, provided
the fuel is at least N. -/
theorem nextPowerOf2Go_eq (fuel N acc : Nat) (hN : N ≠ 0) (hfuel : N ≤ fuel) :
    nextPowerOf2Go fuel N acc = acc * 2 ^ (Nat.log2 N + 1) := by
  induction fuel generalizing N acc with
  | zero => omega
  | succ f ih =>
    rw [nextPowerOf2Go, if_neg hN]
    by_cases h2 : N < 2
    · interval_cases N
      · omega
      · have h1 : (1 : Nat) / 2 = 0 := by norm_num
        rw [h1]
        have hlog : Nat.log2 1 = 0 := by simp [Nat.log2]
        cases f with
        | zero => rw [nextPowerOf2Go]; rw [hlog]; ring
        | succ g =>
          rw [nextPowerOf2Go, if_pos rfl, hlog]
          ring
    · have hge : N ≥ 2 := by omega
      have hhalf : N / 2 ≠ 0 := by
        have h22 : 2 / 2 ≤ N / 2 := Nat.div_le_div_right hge
        omega
      have hdec : N / 2 ≤ f := by
        have := Nat.div_lt_self (by omega : 0 < N) (by omega : 1 < 2)
        omega
      rw [ih (N / 2) (acc * 2) hhalf hdec]
      have hlog : Nat.log2 N = Nat.log2 (N / 2) + 1 := by
        rw [Nat.log2, if_pos hge]
      rw [hlog]
      ring

/-- nextPowerOf2 N equals 2 ^ (log2 N + 1) for N ≥ 1. -/
theorem nextPowerOf2_eq_pow (N : Nat) (hN : N ≠ 0) :
    nextPowerOf2 N = 2 ^ (Nat.log2 N + 1) := by
  rw [nextPowerOf2, if_neg hN, nextPowerOf2Go_eq N N 1 hN (le_refl N)]
  ring

/-- nextPowerOf2 0 = 1 (the early return of the source). -/
theorem nextPowerOf2_zero : nextPowerOf2 0 = 1 := rfl

/-- The result of nextPowerOf2 is strictly greater than its argument. -/
theorem lt_nextPowerOf2 (N : Nat) : N < nextPowerOf2 N := by
  by_cases hN : N = 0
  · subst hN; rw [nextPowerOf2_zero]; omega
  · rw [nextPowerOf2_eq_pow N hN, Nat.log2_eq_log_two]
    exact Nat.lt_pow_succ_log_self (by omega) N

/-- Minimality: nextPowerOf2 N is at most any power of two strictly
greater than N. -/
theorem nextPowerOf2_le_pow (N k : Nat) (h : N < 2 ^ k) :
    nextPowerOf2 N ≤ 2 ^ k := by
  by_cases hN : N = 0
  · subst hN; rw [nextPowerOf2_zero]; exact Nat.one_le_two_pow
  · rw [nextPowerOf2_eq_pow N hN, Nat.log2_eq_log_two]
    have : Nat.log 2 N < k := Nat.log_lt_of_lt_pow hN h
    exact Nat.pow_le_pow_right (by omega) (by omega)

/-- Powers of two are exactly the fixed points of 2 ^ log2. -/
theorem pow2or0_iff (n : Nat) : Pow2Or0 n ↔ n = 0 ∨ ∃ k, n = 2 ^ k := by
  constructor
  · rintro (h | h)
    · exact Or.inl h
    · exact Or.inr ⟨Nat.log2 n, h⟩
  · rintro (h | ⟨k, rfl⟩)
    · exact Or.inl h
    · right
      rw [Nat.log2_eq_log_two, Nat.log_pow (by omega)]

/-- nextPowerOf2 always returns a power of two. -/
theorem pow2or0_nextPowerOf2 (N : Nat) : Pow2Or0 (nextPowerOf2 N) := by
  rw [pow2or0_iff]
  right
  by_cases hN : N = 0
  · subst hN; exact ⟨0, rfl⟩
  · exact ⟨Nat.log2 N + 1, nextPowerOf2_eq_pow N hN⟩

/-- The wrapping shift loop computes acc * 2 ^ (log2 N + 1) modulo
2^64 for N ≥ 1, provided the fuel is at least N. -/
theorem nextPowerOf2SizeTGo_eq (fuel N acc : Nat) (hN : N ≠ 0)
    (hfuel : N ≤ fuel) :
    nextPowerOf2SizeTGo fuel N acc =
      acc * 2 ^ (Nat.log2 N + 1) % sizeTMod := by
  induction fuel generalizing N acc with
  | zero => omega
  | succ f ih =>
    rw [nextPowerOf2SizeTGo, if_neg hN]
    by_cases h2 : N < 2
    · interval_cases N
      · omega
      · have h1 : (1 : Nat) / 2 = 0 := by norm_num
        rw [h1]
        have hlog : Nat.log2 1 = 0 := by simp [Nat.log2]
        rw [hlog]
        have hsame : acc * 2 ^ (0 + 1) % sizeTMod = acc * 2 % sizeTMod := by
          ring_nf
        rw [hsame]
        cases f with
        | zero => rw [nextPowerOf2SizeTGo]
        | succ g => rw [nextPowerOf2SizeTGo, if_pos rfl]
    · have hge : N ≥ 2 := by omega
      have hhalf : N / 2 ≠ 0 := by
        have h22 : 2 / 2 ≤ N / 2 := Nat.div_le_div_right hge
        omega
      have hdec : N / 2 ≤ f := by
        have := Nat.div_lt_self (by omega : 0 < N) (by omega : 1 < 2)
        omega
      rw [ih (N / 2) (acc * 2 % sizeTMod) hhalf hdec]
      have hlog : Nat.log2 N = Nat.log2 (N / 2) + 1 := by
        rw [Nat.log2, if_pos hge]
      rw [hlog, Nat.mod_mul_mod]
      congr 1
      ring

/-- The faithful size_t nextPowerOf2 equals 2 ^ (log2 N + 1) reduced
modulo 2^64 for N ≥ 1. -/
theorem nextPowerOf2SizeT_eq_pow (N : Nat) (hN : N ≠ 0) :
    nextPowerOf2SizeT N = 2 ^ (Nat.log2 N + 1) % sizeTMod := by
  rw [nextPowerOf2SizeT, if_neg hN,
    nextPowerOf2SizeTGo_eq N N 1 hN (le_refl N)]
  rw [Nat.one_mul]

/-- Below the wrap region (N < 2^63) the shift never overflows, so the
size_t computation coincides with the idealised one. -/
theorem nextPowerOf2SizeT_eq_below (N : Nat) (h : N < 2 ^ 63) :
    nextPowerOf2SizeT N = nextPowerOf2 N := by
  by_cases hN : N = 0
  · subst hN; rfl
  · rw [nextPowerOf2SizeT_eq_pow N hN, nextPowerOf2_eq_pow N hN]
    apply Nat.mod_eq_of_lt
    have hlog : Nat.log2 N < 63 := by
      rw [Nat.log2_eq_log_two]
      exact Nat.log_lt_of_lt_pow hN h
    calc 2 ^ (Nat.log2 N + 1) ≤ 2 ^ 63 :=
          Nat.pow_le_pow_right (by omega) (by omega)
      _ < sizeTMod := by rw [sizeTMod]; norm_num

/-- In the wrap region (2^63 ≤ N < 2^64, every remaining size_t value)
the 64 doublings shift the bit out entirely: the source returns 0. -/
theorem nextPowerOf2SizeT_wrap (N : Nat) (h1 : 2 ^ 63 ≤ N)
    (h2 : N < 2 ^ 64) :
    nextPowerOf2SizeT N = 0 := by
  have hN : N ≠ 0 := by positivity
  rw [nextPowerOf2SizeT_eq_pow N hN]
  have hlog : Nat.log2 N = 63 := by
    rw [Nat.log2_eq_log_two]
    have hlo : 63 ≤ Nat.log 2 N := by
      rw [← Nat.pow_le_iff_le_log (by omega) hN]
      exact h1
    have hhi : Nat.log 2 N < 64 := Nat.log_lt_of_lt_pow hN h2
    omega
  rw [hlog, sizeTMod]
  simp

/-- Writing into the one-past slot of a list prefix replaces exactly
that slot. -/
theorem set_concat_self (l : List α) (a b : α) (n : Nat) (h : n = l.length) :
    (l ++ [a]).set n b = l ++ [b] := by
  subst h
  rw [List.set_append_right _ _ (le_refl l.length), Nat.sub_self]
  rfl

/-- Net effect of the forward assignment loop when the destination does
not run ahead of the source (dst ≤ src), as at every call site: slots
[dst, dst+count) receive the original values of slots [src, src+count),
everything else is unchanged. -/
theorem assignRangeForwardL_eq [Inhabited α] (count : Nat) :
    ∀ (l : List α) (src dst : Nat), dst ≤ src → src + count ≤ l.length →
    assignRangeForwardL l src dst count =
      l.take dst ++ (l.drop src).take count ++ l.drop (dst + count) := by
  induction count with
  | zero =>
    intro l src dst _ _
    simp [assignRangeForwardL]
  | succ c ih =>
    intro l src dst hds hlen
    have hsrc : src < l.length := by omega
    have hdst : dst < l.length := by omega
    rw [assignRangeForwardL]
    set l' := l.set dst (l.getD src default) with hl'
    have hlen' : l'.length = l.length := by simp [hl']
    rw [ih l' (src + 1) (dst + 1) (by omega) (by omega)]
    have ht : l.take (dst + 1) = l.take dst ++ [l[dst]] := by
      rw [← List.take_concat_get l dst hdst, List.concat_eq_append]
    have h1 : l'.take (dst + 1) = l.take dst ++ [l.getD src default] := by
      rw [hl', List.set_take, ht]
      have hlt : (l.take dst).length = dst := by
        simp only [List.length_take]
        omega
      exact set_concat_self _ _ _ _ hlt.symm
    have h2 : l'.drop (src + 1) = l.drop (src + 1) := by
      rw [hl', List.drop_set, if_pos (by omega)]
    have h3 : l'.drop (dst + 1 + c) = l.drop (dst + 1 + c) := by
      rw [hl', List.drop_set, if_pos (by omega)]
    rw [h1, h2, h3]
    have h4 : (l.drop src).take (c + 1) =
        l.getD src default :: (l.drop (src + 1)).take c := by
      rw [List.drop_eq_getElem_cons hsrc, List.take_succ_cons,
        List.getD_eq_getElem l default hsrc]
    rw [h4]
    have h5 : dst + 1 + c = dst + (c + 1) := by omega
    rw [h5]
    simp [List.append_assoc]

/-- Net effect of the backward assignment loop when the destination
runs ahead of the source (src ≤ dst), the overlap direction it exists
for: slots [dst, dst+count) receive the original values of slots
[src, src+count), everything else is unchanged. -/
theorem assignRangeBackwardL_eq [Inhabited α] (count : Nat) :
    ∀ (l : List α) (src dst : Nat), src ≤ dst → dst + count ≤ l.length →
    assignRangeBackwardL l src dst count =
      l.take dst ++ (l.drop src).take count ++ l.drop (dst + count) := by
  induction count with
  | zero =>
    intro l src dst _ _
    simp [assignRangeBackwardL]
  | succ c ih =>
    intro l src dst hsd hlen
    have hdstc : dst + c < l.length := by omega
    have hsrcc : src + c < l.length := by omega
    rw [assignRangeBackwardL]
    set l' := l.set (dst + c) (l.getD (src + c) default) with hl'
    have hlen' : l'.length = l.length := by simp [hl']
    rw [ih l' src dst hsd (by omega)]
    have h1 : l'.take dst = l.take dst := by
      rw [hl', List.set_take]
      exact List.set_eq_of_length_le
        (by simp only [List.length_take]; omega)
    have h2 : (l'.drop src).take c = (l.drop src).take c := by
      rw [hl', List.drop_set, if_neg (by omega), List.set_take]
      exact List.set_eq_of_length_le
        (by simp only [List.length_take, List.length_drop]; omega)
    have h3 : l'.drop (dst + c) =
        l.getD (src + c) default :: l.drop (dst + c + 1) := by
      rw [hl', List.drop_set, if_neg (by omega), Nat.sub_self,
        List.drop_eq_getElem_cons hdstc]
      rfl
    rw [h1, h2, h3]
    have h4 : (l.drop src).take (c + 1) =
        (l.drop src).take c ++ [l.getD (src + c) default] := by
      have hc : c < (l.drop src).length := by
        simp only [List.length_drop]
        omega
      rw [← List.take_concat_get (l.drop src) c hc, List.concat_eq_append]
      congr 2
      rw [List.getElem_drop]
      exact (List.getD_eq_getElem l default (by omega)).symm
    rw [h4]
    have h5 : dst + c + 1 = dst + (c + 1) := by omega
    rw [h5]
    simp [List.append_assoc]

/-- push_back appends the new element to the live contents in both the
growth and the in-capacity branch. -/
theorem push_back_data (v : VecState α) (x : α) :
    (push_back v x).data = v.data ++ [x] := by
  unfold push_back
  split <;> rfl

/-- push_back increments sz in both branches. -/
theorem push_back_sz (v : VecState α) (x : α) :
    (push_back v x).sz = v.sz + 1 := by
  unfold push_back
  split <;> rfl

/-- The capacity after push_back: grown to nextPowerOf2 cap when the
container was full, unchanged otherwise. -/
theorem push_back_cap (v : VecState α) (x : α) :
    (push_back v x).cap =
      if v.sz = v.cap then nextPowerOf2 v.cap else v.cap := by
  unfold push_back
  split <;> simp_all

/-- Folding push_back over a list appends the pushed values in order
and adds their count to sz. -/
theorem foldl_push_back (xs : List α) :
    ∀ v : VecState α, (xs.foldl push_back v).data = v.data ++ xs ∧
      (xs.foldl push_back v).sz = v.sz + xs.length := by
  induction xs with
  | nil => intro v; simp
  | cons x xs ih =>
    intro v
    rw [List.foldl_cons]
    rcases ih (push_back v x) with ⟨hd, hs⟩
    constructor
    · rw [hd, push_back_data]
      simp
    · rw [hs, push_back_sz, List.length_cons]
      omega

/-- The state built by a sequence of push_back calls from the default
constructor: the pushed values in push order. -/
theorem pushSeq_spec (xs : List α) :
    (pushSeq xs).data = xs ∧ (pushSeq xs).sz = xs.length := by
  rcases foldl_push_back xs emptyVec with ⟨hd, hs⟩
  refine ⟨?_, ?_⟩
  · rw [pushSeq] at *
    rw [hd]
    simp [emptyVec]
  · rw [pushSeq] at *
    rw [hs]
    simp [emptyVec]

/-- The in-place insert branch produces exactly the sequence with the
new value spliced in at the requested interior position. -/
theorem insertInPlace_spec [Inhabited α] (v : VecState α) (i : Nat) (x : α)
    (hwf : v.data.length = v.sz) (hi : i < v.sz) :
    insertInPlace v i x =
      ⟨v.sz + 1, v.cap, v.data.take i ++ x :: v.data.drop i⟩ := by
  unfold insertInPlace
  have hlast : v.sz - 1 < v.data.length := by omega
  set l1 := v.data ++ [v.data.getD (v.sz - 1) default] with hl1
  have hlen1 : l1.length = v.sz + 1 := by
    simp [hl1, hwf]
  have hchar := assignRangeBackwardL_eq (v.sz - 1 - i) l1 i (i + 1)
    (by omega) (by omega)
  have harith : i + 1 + (v.sz - 1 - i) = v.sz := by omega
  rw [harith] at hchar
  congr 1
  rw [hchar]
  -- l1.take (i + 1) = v.data.take (i + 1)
  have ht1 : l1.take (i + 1) = v.data.take (i + 1) :=
    List.take_append_of_le_length (by omega)
  -- l1.drop i = v.data.drop i ++ [v.data.getD (v.sz - 1) default]
  have hd1 : l1.drop i = v.data.drop i ++ [v.data.getD (v.sz - 1) default] :=
    List.drop_append_of_le_length (by omega)
  -- (l1.drop i).take (v.sz - 1 - i) = (v.data.drop i).take (v.sz - 1 - i)
  have ht2 : (l1.drop i).take (v.sz - 1 - i) =
      (v.data.drop i).take (v.sz - 1 - i) := by
    rw [hd1]
    exact List.take_append_of_le_length (by simp [List.length_drop]; omega)
  -- l1.drop v.sz = [v.data.getD (v.sz - 1) default]
  have hd2 : l1.drop v.sz = [v.data.getD (v.sz - 1) default] := by
    rw [hl1, ← hwf, List.drop_left]
  rw [ht1, ht2, hd2]
  -- (v.data.drop i).take (v.sz - 1 - i) ++ [v.data.getD (v.sz - 1) default]
  --   = v.data.drop i
  have hrest : (v.data.drop i).take (v.sz - 1 - i) ++
      [v.data.getD (v.sz - 1) default] = v.data.drop i := by
    have hc : v.sz - 1 - i < (v.data.drop i).length := by
      simp only [List.length_drop]
      omega
    have := List.take_concat_get (v.data.drop i) (v.sz - 1 - i) hc
    rw [List.concat_eq_append] at this
    have hget : (v.data.drop i)[v.sz - 1 - i] = v.data.getD (v.sz - 1) default := by
      rw [List.getElem_drop]
      rw [List.getD_eq_getElem v.data default (by omega)]
      congr 1
      omega
    rw [hget] at this
    rw [this]
    have : v.sz - 1 - i + 1 = (v.data.drop i).length := by
      simp only [List.length_drop]
      omega
    rw [this, List.take_length]
  -- assemble, then push the set inside
  rw [List.append_assoc, hrest]
  have htake : v.data.take (i + 1) = v.data.take i ++ [v.data.getD i default] := by
    have hc : i < v.data.length := by omega
    have := List.take_concat_get v.data i hc
    rw [List.concat_eq_append] at this
    rw [← this, List.getD_eq_getElem v.data default hc]
  rw [htake, List.append_assoc]
  have hset : (v.data.take i ++ ([v.data.getD i default] ++ v.data.drop i)).set i x =
      v.data.take i ++ ([x] ++ v.data.drop i) := by
    have hlt : (v.data.take i).length = i := by
      simp only [List.length_take]
      omega
    rw [List.set_append_right _ _ (by omega), hlt, Nat.sub_self]
    rfl
  rw [hset]
  simp

/-- The in-place erase shift produces exactly the sequence with the
element at the requested position removed. -/
theorem eraseInPlace_spec [Inhabited α] (v : VecState α) (i : Nat)
    (hwf : v.data.length = v.sz) (hi : i + 1 ≤ v.sz) :
    eraseInPlace v i =
      ⟨v.sz - 1, v.cap, v.data.take i ++ v.data.drop (i + 1)⟩ := by
  unfold eraseInPlace
  have hchar := assignRangeForwardL_eq (v.sz - (i + 1)) v.data (i + 1) i
    (by omega) (by omega)
  congr 1
  rw [hchar]
  have ht : (v.data.drop (i + 1)).take (v.sz - (i + 1)) = v.data.drop (i + 1) := by
    have hh : v.sz - (i + 1) = (v.data.drop (i + 1)).length := by
      simp only [List.length_drop]
      omega
    rw [hh, List.take_length]
  rw [ht]
  rw [List.take_append_of_le_length
    (by simp only [List.length_append, List.length_take, List.length_drop]; omega)]
  rw [List.take_of_length_le
    (by simp only [List.length_append, List.length_take, List.length_drop]; omega)]

/-- Single-element insert at an interior position always succeeds and
splices the value in, growing the capacity to nextPowerOf2 cap exactly
when the container was full. -/
theorem insertSingle_interior [Inhabited α] (v : VecState α) (i : Nat) (x : α)
    (hwf : v.data.length = v.sz) (hi : i < v.sz) :
    insertSingle v i x =
      .ok ⟨v.sz + 1, if v.sz = v.cap then nextPowerOf2 v.cap else v.cap,
        v.data.take i ++ x :: v.data.drop i⟩ := by
  unfold insertSingle
  rw [if_neg (by omega), if_neg (by omega)]
  split
  · rfl
  · rw [insertInPlace_spec v i x hwf hi]

/-- pop_back decrements sz (saturating at the empty no-op) and keeps
the capacity. -/
theorem pop_back_sz_cap (v : VecState α) :
    (pop_back v).sz = v.sz - 1 ∧ (pop_back v).cap = v.cap := by
  unfold pop_back
  split
  · exact ⟨rfl, rfl⟩
  · refine ⟨?_, rfl⟩
    omega

/-- Size and capacity of any successful single-element insert: sz grows
by one, cap grows to nextPowerOf2 cap exactly when the container was
full. -/
theorem insertSingle_result [Inhabited α] {v w : VecState α} {i : Nat} {x : α}
    (h : insertSingle v i x = .ok w) :
    w.sz = v.sz + 1 ∧
      w.cap = (if v.sz = v.cap then nextPowerOf2 v.cap else v.cap) := by
  unfold insertSingle at h
  split_ifs at h with h1 h2 h3
  · rw [Except.ok.injEq] at h
    subst h
    exact ⟨push_back_sz v x, push_back_cap v x⟩
  · rw [Except.ok.injEq] at h
    subst h
    exact ⟨rfl, by rw [if_pos h3]⟩
  · rw [Except.ok.injEq] at h
    subst h
    unfold insertInPlace
    exact ⟨rfl, by rw [if_neg h3]⟩

/-- Size and capacity of any successful single-element erase: sz drops
by one, cap is untouched. -/
theorem eraseSingle_result [Inhabited α] {v u : VecState α} {i : Nat}
    (h : eraseSingle v i = .ok u) :
    u.sz = v.sz - 1 ∧ u.cap = v.cap := by
  unfold eraseSingle at h
  split_ifs at h with h1 h2
  · rw [Except.ok.injEq] at h
    subst h
    exact pop_back_sz_cap v
  · rw [Except.ok.injEq] at h
    subst h
    unfold eraseInPlace
    exact ⟨rfl, rfl⟩

/-- Size and capacity of any successful (well-defined) range erase. -/
theorem eraseRange_result [Inhabited α] {v u : VecState α} {i j : Nat}
    (h : eraseRange v i j = .ok u) :
    u.sz = v.sz - (j - i) ∧ u.cap = v.cap := by
  unfold eraseRange at h
  split_ifs at h with h1 h2 h3
  · rw [ERes.ok.injEq] at h
    subst h
    exact ⟨rfl, rfl⟩

/-- Every defined public operation preserves the size-within-capacity
invariant. -/
theorem step_sz_le_cap [Inhabited α] {v v' : VecState α} {op : VOp α}
    (hv : v.sz ≤ v.cap) (h : step v op = some v') : v'.sz ≤ v'.cap := by
  have hnp := lt_nextPowerOf2 v.cap
  cases op with
  | push x =>
    simp only [step, Option.some.injEq] at h
    subst h
    rw [push_back_sz, push_back_cap]
    split <;> omega
  | pop =>
    simp only [step, Option.some.injEq] at h
    subst h
    rcases pop_back_sz_cap v with ⟨h1, h2⟩
    omega
  | clearOp =>
    simp only [step, Option.some.injEq] at h
    subst h
    simp [clearVec]
  | insertAt i x =>
    simp only [step, Option.some.injEq] at h
    subst h
    cases hI : insertSingle v i x with
    | error e => simp only [hI]; exact hv
    | ok w =>
      simp only [hI]
      rcases insertSingle_result hI with ⟨h1, h2⟩
      by_cases hc : v.sz = v.cap
      · rw [if_pos hc] at h2
        omega
      · rw [if_neg hc] at h2
        omega
  | eraseAt i =>
    simp only [step, Option.some.injEq] at h
    subst h
    cases hE : eraseSingle v i with
    | error e => simp only [hE]; exact hv
    | ok u =>
      simp only [hE]
      rcases eraseSingle_result hE with ⟨h1, h2⟩
      omega
  | eraseRng i j =>
    simp only [step] at h
    cases hE : eraseRange v i j with
    | err e =>
      rw [hE] at h
      simp only [Option.some.injEq] at h
      subst h
      exact hv
    | ok u =>
      rw [hE] at h
      simp only [Option.some.injEq] at h
      subst h
      rcases eraseRange_result hE with ⟨h1, h2⟩
      omega
    | ub =>
      rw [hE] at h
      simp at h
  | resizeTo n =>
    simp only [step, Option.some.injEq] at h
    subst h
    unfold resize clearVec
    split_ifs <;> (try dsimp only) <;> omega
  | reserveTo n =>
    simp only [step, Option.some.injEq] at h
    subst h
    unfold reserve
    split_ifs <;> (try dsimp only) <;> omega
  | shrinkOp =>
    simp only [step, Option.some.injEq] at h
    subst h
    unfold shrink_to_fit
    split_ifs <;> (try dsimp only) <;> omega
  | assignN n x =>
    simp only [step, Option.some.injEq] at h
    subst h
    unfold assignFill
    have := lt_nextPowerOf2 n
    split_ifs <;> (try dsimp only) <;> omega

/-- Every defined public operation that does not take an exact-
capacity-installing branch keeps the capacity zero-or-power-of-two. -/
theorem step_pow2 [Inhabited α] {v v' : VecState α} {op : VOp α}
    (hex : installsExactCap v op = false) (hv : Pow2Or0 v.cap)
    (h : step v op = some v') : Pow2Or0 v'.cap := by
  cases op with
  | push x =>
    simp only [step, Option.some.injEq] at h
    subst h
    rw [push_back_cap]
    split
    · exact pow2or0_nextPowerOf2 v.cap
    · exact hv
  | pop =>
    simp only [step, Option.some.injEq] at h
    subst h
    rw [(pop_back_sz_cap v).2]
    exact hv
  | clearOp =>
    simp only [step, Option.some.injEq] at h
    subst h
    exact hv
  | insertAt i x =>
    simp only [step, Option.some.injEq] at h
    subst h
    cases hI : insertSingle v i x with
    | error e => simp only [hI]; exact hv
    | ok w =>
      simp only [hI]
      rcases insertSingle_result hI with ⟨h1, h2⟩
      by_cases hc : v.sz = v.cap
      · rw [if_pos hc] at h2
        rw [h2]
        exact pow2or0_nextPowerOf2 v.cap
      · rw [if_neg hc] at h2
        rw [h2]
        exact hv
  | eraseAt i =>
    simp only [step, Option.some.injEq] at h
    subst h
    cases hE : eraseSingle v i with
    | error e => simp only [hE]; exact hv
    | ok u =>
      simp only [hE]
      rw [(eraseSingle_result hE).2]
      exact hv
  | eraseRng i j =>
    simp only [step] at h
    cases hE : eraseRange v i j with
    | err e =>
      rw [hE] at h
      simp only [Option.some.injEq] at h
      subst h
      exact hv
    | ok u =>
      rw [hE] at h
      simp only [Option.some.injEq] at h
      subst h
      rw [(eraseRange_result hE).2]
      exact hv
    | ub =>
      rw [hE] at h
      simp at h
  | resizeTo n =>
    simp only [installsExactCap, decide_eq_false_iff_not] at hex
    simp only [step, Option.some.injEq] at h
    subst h
    unfold resize clearVec
    split_ifs with h1 h2 h3 h4
    · exact hv
    · exact hv
    · exact hv
    · exact hv
    · exact absurd (by omega : v.sz < n ∧ v.cap ≤ n) hex
  | reserveTo n =>
    simp only [installsExactCap, decide_eq_false_iff_not] at hex
    simp only [step, Option.some.injEq] at h
    subst h
    unfold reserve
    rw [if_pos (by omega)]
    exact hv
  | shrinkOp =>
    simp only [installsExactCap, decide_eq_false_iff_not] at hex
    simp only [step, Option.some.injEq] at h
    subst h
    unfold shrink_to_fit
    rw [if_pos (by omega)]
    exact hv
  | assignN n x =>
    simp only [step, Option.some.injEq] at h
    subst h
    unfold assignFill
    split_ifs
    · exact pow2or0_nextPowerOf2 n
    · exact hv

/-- The size-within-capacity invariant is preserved along every defined
trace. -/
theorem run_sz_le_cap [Inhabited α] :
    ∀ (ops : List (VOp α)) (v v' : VecState α), v.sz ≤ v.cap →
      run v ops = some v' → v'.sz ≤ v'.cap := by
  intro ops
  induction ops with
  | nil =>
    intro v v' hv h
    injection h with h
    subst h
    exact hv
  | cons op ops ih =>
    intro v v' hv h
    unfold run at h
    cases hs : step v op with
    | none => rw [hs] at h; simp at h
    | some w =>
      rw [hs] at h
      exact ih w v' (step_sz_le_cap hv hs) h

/-- The zero-or-power-of-two capacity invariant is preserved along
every defined trace that never takes an exact-capacity-installing
branch. -/
theorem run_pow2 [Inhabited α] :
    ∀ (ops : List (VOp α)) (v v' : VecState α), Pow2Or0 v.cap →
      runNoExactCap v ops = true →
      run v ops = some v' → Pow2Or0 v'.cap := by
  intro ops
  induction ops with
  | nil =>
    intro v v' hv _ h
    injection h with h
    subst h
    exact hv
  | cons op ops ih =>
    intro v v' hv hnoex h
    unfold run at h
    unfold runNoExactCap at hnoex
    rw [Bool.and_eq_true] at hnoex
    rcases hnoex with ⟨hex, hrest⟩
    cases hs : step v op with
    | none => rw [hs] at h; simp at h
    | some w =>
      rw [hs] at h
      rw [hs] at hrest
      have hex2 : installsExactCap v op = false := by
        simpa using hex
      exact ih w v' (step_pow2 hex2 hv hs) hrest h

/-- Claim C1, counterexample: on the container [1,2,3,4] with size 4
and capacity 4 (built by four push_back calls), a push_back whose
new-element construction throws leaves size 4 and contents [1,2,3,4],
but capacity 8 — not 4 as the claim states: the growth step has already
been installed when the construction is attempted. -/
theorem C1_counterexample :
    (pushBackElemThrow (pushSeq [1, 2, 3, 4])).sz = 4 ∧
    (pushBackElemThrow (pushSeq [1, 2, 3, 4])).data = [1, 2, 3, 4] ∧
    (pushBackElemThrow (pushSeq [1, 2, 3, 4])).cap = 8 ∧
    (pushBackElemThrow (pushSeq [1, 2, 3, 4])).cap ≠ 4 := by decide

/-- Claim C1 (amended): if push_back triggers growth (size == capacity)
and the construction of the new element throws, the container afterwards
has its size and contents unchanged, but its capacity has grown to
nextPowerOf2 of the old capacity (8 in the 4-element scenario); the
growth is installed before the failing construction and is not rolled
back. -/
theorem C1_push_back_growth_throw (v : VecState α) (h : v.sz = v.cap) :
    (pushBackElemThrow v).sz = v.sz ∧
    (pushBackElemThrow v).data = v.data ∧
    (pushBackElemThrow v).cap = nextPowerOf2 v.cap := by
  unfold pushBackElemThrow
  rw [if_pos h]
  exact ⟨rfl, rfl, rfl⟩

/-- Claim C1 witness: the amended statement instantiated at the
container [1,2,3,4] with size and capacity 4. -/
theorem C1_push_back_growth_throw_witness :
    (pushBackElemThrow (pushSeq [1, 2, 3, 4])).sz = (pushSeq [1, 2, 3, 4]).sz ∧
    (pushBackElemThrow (pushSeq [1, 2, 3, 4])).data = (pushSeq [1, 2, 3, 4]).data ∧
    (pushBackElemThrow (pushSeq [1, 2, 3, 4])).cap =
      nextPowerOf2 (pushSeq [1, 2, 3, 4]).cap :=
  C1_push_back_growth_throw (pushSeq [1, 2, 3, 4]) (by decide)

/-- Claim C2, counterexample: shrink_to_fit on the reachable container
[1,2,3] (size 3, capacity 4, built by three push_back calls) installs
capacity 3, which is neither 0 nor a power of two, refuting the claim
that capacity() is 0 or a power of two after every public operation. -/
theorem C2_counterexample :
    run (emptyVec : VecState Nat)
        [VOp.push 1, VOp.push 2, VOp.push 3, VOp.shrinkOp] =
      some ⟨3, 3, [1, 2, 3]⟩ ∧ ¬ Pow2Or0 3 := by
  constructor
  · decide
  · rw [pow2or0_iff]
    rintro (h | ⟨k, hk⟩)
    · omega
    · rcases Nat.lt_or_ge k 2 with hlt | hge
      · interval_cases k <;> norm_num at hk
      · have h4 : (2 : Nat) ^ 2 ≤ 2 ^ k := Nat.pow_le_pow_right (by omega) hge
        omega

/-- Claim C2 (amended): starting from the default constructor or the
count-only fill constructor, after every defined sequence of public
operations capacity() ≥ size() holds; and as long as no operation has
actually installed an exact capacity — resize only in its
grow-reallocation branch (newSize > size and newSize ≥ capacity, line
1423), reserve only when it raises the capacity (line 1517),
shrink_to_fit only when it reallocates (size ≠ capacity, line 1551) —
capacity() is 0 or a power of two.  Shrinking and in-place resizes,
no-op reserves and no-op shrink_to_fits are covered: they leave the
capacity unchanged.  (The fill-with-value constructor is excluded: it
mis-computes its capacity, see C4.) -/
theorem C2_capacity_invariant [Inhabited α] (v0 : VecState α)
    (ops : List (VOp α)) (v' : VecState α)
    (hstart : v0 = emptyVec ∨ ∃ n, v0 = fillCtorCount n)
    (hrun : run v0 ops = some v') :
    v'.sz ≤ v'.cap ∧
      (runNoExactCap v0 ops = true → Pow2Or0 v'.cap) := by
  have hsz : v0.sz ≤ v0.cap := by
    rcases hstart with rfl | ⟨n, rfl⟩
    · exact Nat.le_refl 0
    · exact Nat.le_of_lt (lt_nextPowerOf2 n)
  have hp : Pow2Or0 v0.cap := by
    rcases hstart with rfl | ⟨n, rfl⟩
    · exact Or.inl rfl
    · exact pow2or0_nextPowerOf2 n
  exact ⟨run_sz_le_cap ops v0 v' hsz hrun,
    fun hnoex => run_pow2 ops v0 v' hp hnoex hrun⟩

/-- Claim C2 witness: the invariant instantiated on a concrete trace
containing a SHRINKING resize (capacity-preserving, so allowed by the
hypothesis) besides pushes: push 1, push 2, push 3, resize(2), push 9
ends in size 3, capacity 4, contents [1,2,9]. -/
theorem C2_capacity_invariant_witness :
    (⟨3, 4, [1, 2, 9]⟩ : VecState Nat).sz ≤
        (⟨3, 4, [1, 2, 9]⟩ : VecState Nat).cap ∧
      (runNoExactCap (emptyVec : VecState Nat)
          [VOp.push 1, VOp.push 2, VOp.push 3, VOp.resizeTo 2,
            VOp.push 9] = true →
        Pow2Or0 (⟨3, 4, [1, 2, 9]⟩ : VecState Nat).cap) :=
  C2_capacity_invariant emptyVec
    [VOp.push 1, VOp.push 2, VOp.push 3, VOp.resizeTo 2, VOp.push 9]
    ⟨3, 4, [1, 2, 9]⟩ (Or.inl rfl) (by decide)

/-- Claim C3, counterexample: on the faithful size_t model,
nextPowerOf2(1) = 2, although the smallest power of two greater than or
equal to 1 is 1 = 2^0, refuting the claim that the function returns the
smallest power of two ≥ n. -/
theorem C3_counterexample :
    nextPowerOf2SizeT 1 = 2 ∧ nextPowerOf2SizeT 1 ≠ 1 ∧
      (1 : Nat) = 2 ^ 0 := by decide

/-- Claim C3 (amended), over the faithful std::size_t model of the
loop: for every n below the wrap region (n < 2^63) the function
returns the smallest power of two STRICTLY greater than n (hence 1
when n = 0, and 2n when n is itself a power of two); for every
remaining size_t value (2^63 ≤ n < 2^64) the 64-bit shift wraps and
the function returns 0. -/
theorem C3_nextPowerOf2_strictly_greater (n : Nat) :
    (n < 2 ^ 63 →
      (∃ k, nextPowerOf2SizeT n = 2 ^ k) ∧ n < nextPowerOf2SizeT n ∧
        ∀ k, n < 2 ^ k → nextPowerOf2SizeT n ≤ 2 ^ k) ∧
      (2 ^ 63 ≤ n → n < 2 ^ 64 → nextPowerOf2SizeT n = 0) := by
  constructor
  · intro hlt
    rw [nextPowerOf2SizeT_eq_below n hlt]
    refine ⟨?_, lt_nextPowerOf2 n, fun k hk => nextPowerOf2_le_pow n k hk⟩
    have hpw := pow2or0_nextPowerOf2 n
    rw [pow2or0_iff] at hpw
    rcases hpw with h | h
    · have := lt_nextPowerOf2 n
      omega
    · exact h
  · intro h1 h2
    exact nextPowerOf2SizeT_wrap n h1 h2

/-- Claim C3 witness: the amended statement instantiated at n = 4
(minimality checked against 2^3) and, for the wrap clause, at
n = 2^63. -/
theorem C3_nextPowerOf2_strictly_greater_witness :
    ((∃ k, nextPowerOf2SizeT 4 = 2 ^ k) ∧ 4 < nextPowerOf2SizeT 4 ∧
        (4 < 2 ^ 3 → nextPowerOf2SizeT 4 ≤ 2 ^ 3)) ∧
      nextPowerOf2SizeT (2 ^ 63) = 0 :=
  ⟨⟨((C3_nextPowerOf2_strictly_greater 4).1 (by norm_num)).1,
      ((C3_nextPowerOf2_strictly_greater 4).1 (by norm_num)).2.1,
      fun h => ((C3_nextPowerOf2_strictly_greater 4).1 (by norm_num)).2.2 3 h⟩,
    (C3_nextPowerOf2_strictly_greater (2 ^ 63)).2 (le_refl _) (by norm_num)⟩

/-- Claim C4: evaluating the fill-with-value constructor at the claimed
input Container c(5, 7).  The member initialiser computes cap =
nextPowerOf2(sz) with sz just set to 0, i.e. capacity 1, and then
placement-constructs five elements into the single allocated slot —
out-of-bounds writes, undefined behavior (none); the n = 1 instance
stays within the allocation and indeed reports capacity 1. -/
theorem C4_fill_value_ctor_bug :
    fillValueCtor 5 (7 : Nat) = none ∧ nextPowerOf2 0 = 1 ∧
      fillValueCtor 1 (7 : Nat) = some ⟨1, 1, [7]⟩ := by decide

/-- Claim C5: for every sequence of push_back calls starting from the
empty container, size() equals the number of calls and at(i) returns
the i-th pushed value, in push order. -/
theorem C5_push_back_sequence [Inhabited α] (xs : List α) :
    (pushSeq xs).sz = xs.length ∧
      ∀ i, i < (pushSeq xs).sz →
        atIndex (pushSeq xs) i = .ok (xs.getD i default) := by
  rcases pushSeq_spec xs with ⟨hd, hs⟩
  refine ⟨hs, fun i hi => ?_⟩
  unfold atIndex
  rw [if_pos hi, hd]

/-- Claim C5 witness: the sequence [10, 20, 30], checking the count and
the element retrieved at index 2. -/
theorem C5_push_back_sequence_witness :
    (pushSeq ([10, 20, 30] : List Nat)).sz = [10, 20, 30].length ∧
      atIndex (pushSeq ([10, 20, 30] : List Nat)) 2 =
        .ok (([10, 20, 30] : List Nat).getD 2 default) :=
  ⟨(C5_push_back_sequence [10, 20, 30]).1,
    (C5_push_back_sequence [10, 20, 30]).2 2 (by decide)⟩

/-- Claim C6: insert(pos, x) followed by erase at the same interior
position restores the pre-insert size and element sequence (the
capacity may have grown if the insert reallocated, which the claim does
not constrain). -/
theorem C6_insert_erase_roundtrip [Inhabited α] (v : VecState α) (i : Nat)
    (x : α) (hwf : v.data.length = v.sz) (hi : i < v.sz) :
    ∃ w u, insertSingle v i x = .ok w ∧ eraseSingle w i = .ok u ∧
      u.sz = v.sz ∧ u.data = v.data := by
  have hins := insertSingle_interior v i x hwf hi
  set wd := v.data.take i ++ x :: v.data.drop i with hwd
  have hwlen : wd.length = v.sz + 1 := by
    simp only [hwd, List.length_append, List.length_cons, List.length_drop,
      List.length_take]
    omega
  have htake : wd.take i = v.data.take i := by
    rw [hwd, List.take_append_of_le_length
      (by simp only [List.length_take]; omega)]
    rw [List.take_take]
    simp
  have hdrop : wd.drop (i + 1) = v.data.drop i := by
    rw [hwd]
    have hsplit : v.data.take i ++ x :: v.data.drop i =
        (v.data.take i ++ [x]) ++ v.data.drop i := by simp
    rw [hsplit]
    apply List.drop_left'
    simp only [List.length_append, List.length_take, List.length_cons,
      List.length_nil]
    omega
  refine ⟨⟨v.sz + 1, if v.sz = v.cap then nextPowerOf2 v.cap else v.cap, wd⟩,
    ⟨v.sz, if v.sz = v.cap then nextPowerOf2 v.cap else v.cap, v.data⟩,
    hins, ?_, rfl, rfl⟩
  unfold eraseSingle
  rw [if_neg (by simp only []; omega)]
  rw [if_neg (by simp only []; omega)]
  have hwf2 : (⟨v.sz + 1, if v.sz = v.cap then nextPowerOf2 v.cap else v.cap,
      wd⟩ : VecState α).data.length =
      (⟨v.sz + 1, if v.sz = v.cap then nextPowerOf2 v.cap else v.cap,
        wd⟩ : VecState α).sz := hwlen
  rw [eraseInPlace_spec _ i hwf2 (by simp only []; omega)]
  rw [Except.ok.injEq]
  show (⟨v.sz + 1 - 1, _, wd.take i ++ wd.drop (i + 1)⟩ : VecState α) = _
  rw [htake, hdrop, List.take_append_drop]
  rfl

/-- Claim C6 witness: inserting 9 at position 2 of [1,2,3,4] and then
erasing position 2 restores size 4 and contents [1,2,3,4]. -/
theorem C6_insert_erase_roundtrip_witness :
    ∃ w u, insertSingle (pushSeq ([1, 2, 3, 4] : List Nat)) 2 9 = .ok w ∧
      eraseSingle w 2 = .ok u ∧
      u.sz = (pushSeq ([1, 2, 3, 4] : List Nat)).sz ∧
      u.data = (pushSeq ([1, 2, 3, 4] : List Nat)).data :=
  C6_insert_erase_roundtrip (pushSeq [1, 2, 3, 4]) 2 9 (by decide) (by decide)

/-- Claim C7: on the trace push_back(1); reserve(4); shrink_to_fit from
the default constructor, the recorded deallocations are: the initial
null pointer released with count 0 although it was never allocated, the
1-slot block released with count 1 (correct by coincidence, size ==
capacity there), and the 4-slot block installed by reserve released
with count 1 — destroyPointer passes the current size, not the count
the block was allocated with, contradicting the claimed pairing
discipline. -/
theorem C7_dealloc_count_mismatch :
    c7trace.2 = [⟨none, 0⟩, ⟨some 1, 1⟩, ⟨some 4, 1⟩] ∧
      DeallocEvent.mk (some 4) 1 ∈ c7trace.2 ∧ (4 : Nat) ≠ 1 := by decide

/-- Claim C8: erase(first, last) on the container [1,2,3] rejects an
empty range and an out-of-bounds range with InvalidArgument, but a
reversed range (first = begin()+2, last = begin()+1) passes validation
and proceeds into the negative-distance shift — undefined behavior, not
the InvalidArgument the claim requires. -/
theorem C8_reversed_range_not_rejected :
    eraseRange (pushSeq [1, 2, 3]) 2 1 = ERes.ub ∧
    eraseRange (pushSeq [1, 2, 3]) 2 1 ≠ ERes.err VErr.invalidArgument ∧
    eraseRange (pushSeq [1, 2, 3]) 0 0 = ERes.err VErr.invalidArgument ∧
    eraseRange (pushSeq [1, 2, 3]) 1 4 = ERes.err VErr.invalidArgument := by
  decide

/-- Claim C9: at(index) returns the live element when index < size()
and raises RangeError for every index ≥ size(); in particular
at(size()) always raises RangeError.  at is a const member returning a
reference, so it performs no mutation (the embedding returns no state
at all). -/
theorem C9_at_bounds [Inhabited α] (v : VecState α) (i : Nat) :
    (i < v.sz → atIndex v i = .ok (v.data.getD i default)) ∧
    (v.sz ≤ i → atIndex v i = .error .rangeError) ∧
    atIndex v v.sz = .error .rangeError := by
  unfold atIndex
  refine ⟨fun h => by rw [if_pos h], fun h => by rw [if_neg (by omega)],
    by rw [if_neg (by omega)]⟩

/-- Claim C9 witness: on the container [5,6], at(1) returns the element,
at(9) and at(size()) raise RangeError. -/
theorem C9_at_bounds_witness :
    atIndex (pushSeq ([5, 6] : List Nat)) 1 =
      .ok ((pushSeq ([5, 6] : List Nat)).data.getD 1 default) ∧
    atIndex (pushSeq ([5, 6] : List Nat)) 9 = .error .rangeError ∧
    atIndex (pushSeq ([5, 6] : List Nat)) (pushSeq ([5, 6] : List Nat)).sz =
      .error .rangeError :=
  ⟨(C9_at_bounds (pushSeq [5, 6]) 1).1 (by decide),
    (C9_at_bounds (pushSeq [5, 6]) 9).2.1 (by decide),
    (C9_at_bounds (pushSeq [5, 6]) 0).2.2⟩

/-- Claim C10: self copy-assignment (v = v, where both operands are the
same object, so the this != &copyVector guard fires) leaves the
container state — size, capacity and element sequence — unchanged. -/
theorem C10_self_copy_assignment (v : VecState α) :
    copyAssignOp true v v = v := by
  unfold copyAssignOp
  rw [if_pos rfl]

end VectorSpec
